import Mathlib

set_option maxRecDepth 8000

/-!
Shallow embedding of the page-analysis stage of the `spacetime-crawler-141`
repository (`src/scraper.py` and `src/tokenizer.py`), together with the parts
of Python's `urllib.parse` standard library that the source calls
(`urlparse`, `urlunparse`, `urljoin`, `urldefrag`, `parse_qs`, `unquote`).

URLs and page texts are modelled as `List Char`.  Machine-level details that
the claims do not touch are restricted in the usual shallow-embedding way:
`\w` / `\d` character classes and `str.lower` are modelled on their ASCII
behaviour, and the byte size of a page body is carried as a `Nat` field next
to the abstract parse result of the body.
-/

/-- Convenience: the character list of a string literal. -/
def toL (s : String) : List Char := s.toList

/-- ASCII apostrophe, written via its code point. -/
def apos : Char := Char.ofNat 39

/-! ## Python `urllib.parse` model -/

/-- Characters removed everywhere by `urlsplit` before parsing
(`_UNSAFE_URL_BYTES_TO_REMOVE = ["\t", "\r", "\n"]`). -/
def badByte (c : Char) : Bool := c = '\t' || c = '\r' || c = '\n'

/-- Characters allowed in a URL scheme (`scheme_chars` in `urllib.parse`). -/
def schemeChar (c : Char) : Bool :=
  c.isAlpha || c.isDigit || c = '+' || c = '-' || c = '.'

/-- Split a list at the first occurrence of `t`: `some (before, after)` when
`t` occurs, `none` otherwise.  Models Python `find` + slicing / `split(t, 1)`. -/
def splitAtFirst (t : Char) : List Char → Option (List Char × List Char)
  | [] => none
  | c :: rest =>
    if c = t then some ([], rest)
    else
      match splitAtFirst t rest with
      | some (a, b) => some (c :: a, b)
      | none => none

/-- Model of `_splitnetloc`: the authority extends to the first `/`, `?` or
`#`; returns `(netloc, rest)`. -/
def splitNetlocAux : List Char → List Char × List Char
  | [] => ([], [])
  | c :: rest =>
    if c = '/' || c = '?' || c = '#' then ([], c :: rest)
    else
      let p := splitNetlocAux rest
      (c :: p.1, p.2)

/-- A valid scheme prefix: nonempty, starts with an ASCII letter, and all of
its characters are scheme characters (`urlsplit`'s scheme recognition). -/
def validScheme : List Char → Bool
  | [] => false
  | c :: rest => c.isAlpha && (c :: rest).all schemeChar

/-- Result of `urlsplit`. -/
structure SplitResult where
  scheme : List Char
  netloc : List Char
  path : List Char
  query : List Char
  fragment : List Char
deriving DecidableEq

/-- Model of `urllib.parse.urlsplit` (with `allow_fragments=True`):
remove tab/CR/LF, recognise the scheme before the first `:`, the authority
after `//`, then split off the fragment at the first `#` and the query at the
first `?`.  `dscheme` is the `scheme` default argument. -/
def urlsplitF (dscheme url : List Char) : SplitResult :=
  let u := url.filter (fun c => !badByte c)
  let ds := dscheme.filter (fun c => !badByte c)
  let sr : List Char × List Char :=
    match splitAtFirst ':' u with
    | some (pre, post) =>
      if validScheme pre then (pre.map Char.toLower, post) else (ds, u)
    | none => (ds, u)
  let scheme := sr.1
  let rest0 := sr.2
  let nr : List Char × List Char :=
    if rest0.take 2 = toL "//" then splitNetlocAux (rest0.drop 2) else ([], rest0)
  let netloc := nr.1
  let rest1 := nr.2
  let fr : List Char × List Char :=
    match splitAtFirst '#' rest1 with
    | some (a, b) => (a, b)
    | none => (rest1, [])
  let rest2 := fr.1
  let fragment := fr.2
  let pq : List Char × List Char :=
    match splitAtFirst '?' rest2 with
    | some (a, b) => (a, b)
    | none => (rest2, [])
  ⟨scheme, netloc, pq.1, pq.2, fragment⟩

/-- Split a path at its last `/`: `p = fst ++ '/' :: snd` with `/` not in
`snd`.  If there is no `/`, returns `(p, [])`. -/
def splitAtLastSlash (p : List Char) : List Char × List Char :=
  match splitAtFirst '/' p.reverse with
  | some (rb, ra) => (ra.reverse, rb.reverse)
  | none => (p, [])

/-- Model of `urlparse`'s `_splitparams`: parameters are everything after the
first `;` that occurs in the final path segment. -/
def splitparams (p : List Char) : List Char × List Char :=
  if p.contains '/' then
    let ab := splitAtLastSlash p
    match splitAtFirst ';' ab.2 with
    | some (b1, b2) => (ab.1 ++ '/' :: b1, b2)
    | none => (p, [])
  else
    match splitAtFirst ';' p with
    | some (a, b) => (a, b)
    | none => (p, [])

/-- Result of `urlparse`. -/
structure ParseResult where
  scheme : List Char
  netloc : List Char
  path : List Char
  params : List Char
  query : List Char
  fragment : List Char
deriving DecidableEq

/-- Model of `urllib.parse.urlparse`: `urlsplit` plus the params split. -/
def urlparseF (dscheme url : List Char) : ParseResult :=
  let s := urlsplitF dscheme url
  let pp := splitparams s.path
  ⟨s.scheme, s.netloc, pp.1, pp.2, s.query, s.fragment⟩

/-- Model of `urllib.parse.urlunsplit`. -/
def urlunsplit (s : SplitResult) : List Char :=
  let url := s.path
  let url :=
    if s.netloc ≠ [] || url.take 2 = toL "//" then
      '/' :: '/' :: (s.netloc ++ (if url ≠ [] && url.head? ≠ some '/' then '/' :: url else url))
    else url
  let url := if s.scheme ≠ [] then s.scheme ++ ':' :: url else url
  let url := if s.query ≠ [] then url ++ '?' :: s.query else url
  if s.fragment ≠ [] then url ++ '#' :: s.fragment else url

/-- Model of `urllib.parse.urlunparse`. -/
def urlunparse (p : ParseResult) : List Char :=
  let u := if p.params ≠ [] then p.path ++ ';' :: p.params else p.path
  urlunsplit ⟨p.scheme, p.netloc, u, p.query, p.fragment⟩

/-- Model of `urllib.parse.urldefrag`: when the URL contains `#`, reparse and
reassemble it without its fragment. -/
def urldefragF (u : List Char) : List Char × List Char :=
  if u.contains '#' then
    let p := urlparseF [] u
    (urlunparse ⟨p.scheme, p.netloc, p.path, p.params, p.query, []⟩, p.fragment)
  else (u, [])

/-! ## `_normalize_url` (src/scraper.py lines 69-80) -/

/-- Python `str.rstrip("/")`: remove every trailing `/`. -/
def rstripSlashes (p : List Char) : List Char :=
  (p.reverse.dropWhile (fun c => c = '/')).reverse

/-- Model of `_normalize_url`: parse, strip trailing slashes from the path,
reassemble.  Note the source passes `parsed.fragment` through to
`urlunparse`, so the fragment is preserved. -/
def _normalize_url (url : List Char) : List Char :=
  let parsed := urlparseF [] url
  urlunparse ⟨parsed.scheme, parsed.netloc, rstripSlashes parsed.path,
              parsed.params, parsed.query, parsed.fragment⟩

/-- The path rewriting that `_normalize_url` performs on an absolute URL
with authority: the parameters component (everything from the first `;` of
the final path segment) is split off, every trailing slash of the part
before it is removed, the parameters are re-attached, and `urlunsplit`
restores a leading slash when the result is nonempty and does not start
with one. -/
def normPath (p : List Char) : List Char :=
  let pp := splitparams p
  let r := rstripSlashes pp.1
  let u := if pp.2 ≠ [] then r ++ ';' :: pp.2 else r
  if u ≠ [] && u.head? ≠ some '/' then '/' :: u else u

/-! ## Python `unquote` and `parse_qs` model -/

/-- Boolean prefix test on character lists. -/
def isPrefixL : List Char → List Char → Bool
  | [], _ => true
  | _ :: _, [] => false
  | a :: as, b :: bs => a = b && isPrefixL as bs

/-- Boolean contiguous-substring test: Python's `needle in haystack`. -/
def isInfixL (n : List Char) : List Char → Bool
  | [] => isPrefixL n []
  | c :: rest => isPrefixL n (c :: rest) || isInfixL n rest

/-- Boolean suffix test on character lists. -/
def isSuffixL (n h : List Char) : Bool := isPrefixL n.reverse h.reverse

/-- Hexadecimal digit value of a character, if any. -/
def hexDigit? (c : Char) : Option Nat :=
  if '0' ≤ c ∧ c ≤ '9' then some (c.toNat - 48)
  else if 'a' ≤ c ∧ c ≤ 'f' then some (c.toNat - 87)
  else if 'A' ≤ c ∧ c ≤ 'F' then some (c.toNat - 55)
  else none

/-- First phase of `unquote`: replace each `%XX` (two hex digits) by the byte
it denotes; all other characters stay literal. -/
def pctTokens : List Char → List (Sum Char Nat)
  | [] => []
  | '%' :: a :: b :: rest =>
    match hexDigit? a, hexDigit? b with
    | some x, some y => Sum.inr (16 * x + y) :: pctTokens rest
    | _, _ => Sum.inl '%' :: pctTokens (a :: b :: rest)
  | c :: rest => Sum.inl c :: pctTokens rest

/-- The Unicode replacement character used by the `errors="replace"` policy. -/
def replChar : Char := Char.ofNat 0xFFFD

/-- Continuation byte of a UTF-8 sequence. -/
def contByte (b : Nat) : Bool := 0x80 ≤ b && b ≤ 0xBF

/-- Allowed ranges for the second byte of a three-byte UTF-8 sequence. -/
def second3ok (b b2 : Nat) : Bool :=
  if b = 0xE0 then 0xA0 ≤ b2 && b2 ≤ 0xBF
  else if b = 0xED then 0x80 ≤ b2 && b2 ≤ 0x9F
  else contByte b2

/-- Allowed ranges for the second byte of a four-byte UTF-8 sequence. -/
def second4ok (b b2 : Nat) : Bool :=
  if b = 0xF0 then 0x90 ≤ b2 && b2 ≤ 0xBF
  else if b = 0xF4 then 0x80 ≤ b2 && b2 ≤ 0x8F
  else contByte b2

/-- UTF-8 decoding of a byte run with the `replace` error policy: each
maximal invalid subpart becomes one replacement character. -/
def utf8Replace : List Nat → List Char
  | [] => []
  | b :: rest =>
    if b < 0x80 then Char.ofNat b :: utf8Replace rest
    else if 0xC2 ≤ b && b ≤ 0xDF then
      match rest with
      | [] => [replChar]
      | b2 :: r2 =>
        if contByte b2 then
          Char.ofNat ((b - 0xC0) * 0x40 + (b2 - 0x80)) :: utf8Replace r2
        else replChar :: utf8Replace (b2 :: r2)
    else if 0xE0 ≤ b && b ≤ 0xEF then
      match rest with
      | [] => [replChar]
      | b2 :: r2 =>
        if second3ok b b2 then
          match r2 with
          | [] => [replChar]
          | b3 :: r3 =>
            if contByte b3 then
              Char.ofNat (((b - 0xE0) * 0x40 + (b2 - 0x80)) * 0x40 + (b3 - 0x80)) :: utf8Replace r3
            else replChar :: utf8Replace (b3 :: r3)
        else replChar :: utf8Replace (b2 :: r2)
    else if 0xF0 ≤ b && b ≤ 0xF4 then
      match rest with
      | [] => [replChar]
      | b2 :: r2 =>
        if second4ok b b2 then
          match r2 with
          | [] => [replChar]
          | b3 :: r3 =>
            if contByte b3 then
              match r3 with
              | [] => [replChar]
              | b4 :: r4 =>
                if contByte b4 then
                  Char.ofNat ((((b - 0xF0) * 0x40 + (b2 - 0x80)) * 0x40 + (b3 - 0x80)) * 0x40 + (b4 - 0x80)) :: utf8Replace r4
                else replChar :: utf8Replace (b4 :: r4)
            else replChar :: utf8Replace (b3 :: r3)
        else replChar :: utf8Replace (b2 :: r2)
    else replChar :: utf8Replace rest

/-- Second phase of `unquote`: decode each maximal run of percent-decoded
bytes as UTF-8, keeping literal characters as-is.  `bacc` is the reversed
run of bytes seen so far. -/
def decodeTokensAux : List (Sum Char Nat) → List Nat → List Char
  | [], bacc => utf8Replace bacc.reverse
  | Sum.inr b :: rest, bacc => decodeTokensAux rest (b :: bacc)
  | Sum.inl c :: rest, bacc => utf8Replace bacc.reverse ++ c :: decodeTokensAux rest []

/-- Model of `urllib.parse.unquote` (with the default `utf-8` encoding and
`replace` error policy). -/
def unquoteF (s : List Char) : List Char := decodeTokensAux (pctTokens s) []

/-- Python `str.split(t)`, with accumulator. -/
def splitOnCharAux (t : Char) : List Char → List Char → List (List Char)
  | [], acc => [acc.reverse]
  | c :: rest, acc =>
    if c = t then acc.reverse :: splitOnCharAux t rest []
    else splitOnCharAux t rest (c :: acc)

/-- Python `str.split(t)`: `"".split` is `[""]`. -/
def splitOnChar (t : Char) (l : List Char) : List (List Char) := splitOnCharAux t l []

/-- Python `str.replace("+", " ")` as used by `parse_qsl`. -/
def plusToSpace (l : List Char) : List Char := l.map (fun c => if c = '+' then ' ' else c)

/-- Model of `urllib.parse.parse_qsl` with default arguments: split the query
on `&`, drop empty fields, fields without `=`, and fields with an empty
value (`keep_blank_values=False`), and percent-decode names and values. -/
def parse_qsl (qs : List Char) : List (List Char × List Char) :=
  (splitOnChar '&' qs).filterMap (fun field =>
    if field = [] then none
    else
      match splitAtFirst '=' field with
      | none => none
      | some (n, v) =>
        if v = [] then none
        else some (unquoteF (plusToSpace n), unquoteF (plusToSpace v)))

/-! ## `_is_trap_url` (src/scraper.py lines 88-115)

`parse_qs` groups the `parse_qsl` pairs into a dict; the source only
iterates over all values of all parameters, so the flat pair list produces
the same iteration set and we keep it in that form. -/

/-- The trap keyword list of `_is_trap_url`. -/
def trap_keywords : List (List Char) :=
  [toL "calendar", toL "ical", toL "archive", toL "revisions", toL "feed"]

/-- Python regex `\w` on ASCII: letters, digits, underscore. -/
def isWordChar (c : Char) : Bool := c.isAlphanum || c = '_'

/-- A `\b` word boundary immediately after a word character: end of input or
a non-word character. -/
def boundaryAfter : List Char → Bool
  | [] => true
  | c :: _ => !isWordChar c

/-- Does `\d{4}-\d{2}(-\d{2})?\b` match at the head of the list?  The
optional day group is tried first; on failure the engine backtracks to the
bare `YYYY-MM` form. -/
def dateHere : List Char → Bool
  | a :: b :: c :: d :: '-' :: e :: f :: rest =>
    a.isDigit && b.isDigit && c.isDigit && d.isDigit && e.isDigit && f.isDigit &&
    ((match rest with
      | '-' :: g :: h :: rest2 => g.isDigit && h.isDigit && boundaryAfter rest2
      | _ => false) || boundaryAfter rest)
  | _ => false

/-- Scan for `\b\d{4}-\d{2}(-\d{2})?\b` anywhere; `prevWord` records whether
the previous character was a word character (for the leading `\b`: the first
pattern character is a digit, so the boundary holds exactly when the
previous character is not a word character). -/
def dateFrom : Bool → List Char → Bool
  | _, [] => false
  | prevWord, c :: rest => (!prevWord && dateHere (c :: rest)) || dateFrom (isWordChar c) rest

/-- Model of `date_trap_pattern.search`. -/
def dateSearch (l : List Char) : Bool := dateFrom false l

/-- Model of `_is_trap_url`: trap keywords as substrings of the lowercased
URL, the date pattern anywhere in the lowercased URL, the date pattern in
any percent-decoded query value, or a literal `?filter%` marker.  The
source's early `return True` chain is the boolean disjunction below. -/
def _is_trap_url (url : List Char) : Bool :=
  let lower_url := url.map Char.toLower
  let parsed_url := urlparseF [] url
  let query_params := parse_qsl parsed_url.query
  (trap_keywords.any (fun k => isInfixL k lower_url)) ||
  (dateSearch lower_url) ||
  (query_params.any (fun kv => dateSearch (unquoteF kv.2))) ||
  (isInfixL (toL "?filter%") lower_url)

/-! ## `is_valid` (src/scraper.py lines 211-245) -/

/-- The exact-match domain allow-list of `is_valid`. -/
def allowed_domains : List (List Char) :=
  [toL "ics.uci.edu", toL "cs.uci.edu", toL "informatics.uci.edu", toL "stat.uci.edu"]

/-- The extension alternation of `is_valid`'s `ext_pattern`, with `jpe?g`
and `tiff?` expanded. -/
def ext_list : List (List Char) :=
  [toL "css", toL "js", toL "bmp", toL "gif", toL "jpg", toL "jpeg", toL "ico",
   toL "png", toL "tif", toL "tiff", toL "mid", toL "mp2", toL "mp3", toL "mp4",
   toL "wav", toL "avi", toL "mov", toL "mpeg", toL "ram", toL "m4v", toL "mkv",
   toL "ogg", toL "ogv", toL "pdf", toL "ps", toL "eps", toL "tex", toL "ppt",
   toL "pptx", toL "doc", toL "docx", toL "xls", toL "xlsx", toL "names",
   toL "data", toL "dat", toL "exe", toL "bz2", toL "tar", toL "msi", toL "bin",
   toL "7z", toL "psd", toL "dmg", toL "iso", toL "epub", toL "dll", toL "cnf",
   toL "tgz", toL "sha1", toL "thmx", toL "mso", toL "arff", toL "rtf",
   toL "jar", toL "csv", toL "rm", toL "smil", toL "wmv", toL "swf", toL "wma",
   toL "zip", toL "rar", toL "gz"]

/-- Model of `ext_pattern.match(path)` for `.*\.(css|…|gz)$` with
`re.IGNORECASE`: `.` does not match a newline and `$` also matches just
before one trailing newline, so the path (with one trailing newline
stripped) must be newline-free and end in a dot followed by a listed
extension, compared case-insensitively. -/
def extRejects (p : List Char) : Bool :=
  let q := match p.getLast? with
    | some c => if c = '\n' then p.dropLast else p
    | none => p
  !q.contains '\n' &&
  ext_list.any (fun e => isSuffixL ('.' :: e) (q.map Char.toLower))

/-- Model of `is_valid`: scheme gate, exact-domain gate, trap gate,
extension gate, and the path-depth gate, in source order.  Every operation
in the source body is total here, so the `except` fallback is dead. -/
def is_valid (url : List Char) : Bool :=
  let parsed := urlparseF [] url
  if ¬(parsed.scheme = toL "http" ∨ parsed.scheme = toL "https") then false
  else if parsed.netloc ∉ allowed_domains then false
  else if _is_trap_url url then false
  else if extRejects parsed.path then false
  else if parsed.path.count '/' > 10 then false
  else true

/-! ## Python `urljoin` model -/

/-- The list `urllib.parse.uses_relative`. -/
def uses_relative : List (List Char) :=
  [[], toL "ftp", toL "http", toL "gopher", toL "nntp", toL "imap", toL "wais",
   toL "file", toL "https", toL "shttp", toL "mms", toL "prospero", toL "rtsp",
   toL "rtspu", toL "sftp", toL "svn", toL "svn+ssh", toL "ws", toL "wss"]

/-- The list `urllib.parse.uses_netloc`. -/
def uses_netloc : List (List Char) :=
  [[], toL "ftp", toL "http", toL "gopher", toL "nntp", toL "telnet", toL "imap",
   toL "wais", toL "file", toL "mms", toL "https", toL "shttp", toL "snews",
   toL "prospero", toL "rtsp", toL "rtspu", toL "rsync", toL "svn",
   toL "svn+ssh", toL "sftp", toL "nfs", toL "git", toL "git+ssh", toL "ws",
   toL "wss", toL "itms-services"]

/-- The dot-segment loop of `urljoin`: `..` pops the last resolved segment
(silently on empty, like the `except IndexError: pass`), `.` is dropped,
anything else is appended.  `acc` holds the resolved segments reversed. -/
def resolveSegs (acc : List (List Char)) : List (List Char) → List (List Char)
  | [] => acc.reverse
  | seg :: rest =>
    if seg = toL ".." then resolveSegs (acc.drop 1) rest
    else if seg = toL "." then resolveSegs acc rest
    else resolveSegs (seg :: acc) rest

/-- Model of `segments[1:-1] = filter(None, segments[1:-1])`: drop empty segments,
keeping the last one. -/
def filterMiddleAux : List (List Char) → List (List Char)
  | [] => []
  | [z] => [z]
  | s :: rest => if s = [] then filterMiddleAux rest else s :: filterMiddleAux rest

/-- Drop empty interior segments (first and last kept). -/
def filterMiddle : List (List Char) → List (List Char)
  | [] => []
  | [a] => [a]
  | a :: rest => a :: filterMiddleAux rest

/-- Model of `urllib.parse.urljoin(base, url)` with `allow_fragments=True`. -/
def urljoinF (base url : List Char) : List Char :=
  if base = [] then url
  else if url = [] then base
  else
    let b := urlparseF [] base
    let r := urlparseF b.scheme url
    if ¬(r.scheme = b.scheme ∧ r.scheme ∈ uses_relative) then url
    else if r.scheme ∈ uses_netloc ∧ r.netloc ≠ [] then
      urlunparse ⟨r.scheme, r.netloc, r.path, r.params, r.query, r.fragment⟩
    else
      let netloc := if r.scheme ∈ uses_netloc then b.netloc else r.netloc
      if r.path = [] ∧ r.params = [] then
        urlunparse ⟨r.scheme, netloc, b.path, b.params,
                    (if r.query = [] then b.query else r.query), r.fragment⟩
      else
        let bp := splitOnChar '/' b.path
        let base_parts := if bp.getLast? ≠ some [] then bp.dropLast else bp
        let segments :=
          if r.path.head? = some '/' then splitOnChar '/' r.path
          else filterMiddle (base_parts ++ splitOnChar '/' r.path)
        let resolved0 := resolveSegs [] segments
        let resolved :=
          if segments.getLast? = some (toL ".") ∨ segments.getLast? = some (toL "..") then
            resolved0 ++ [[]]
          else resolved0
        let joined := List.intercalate (toL "/") resolved
        urlunparse ⟨r.scheme, netloc, (if joined = [] then toL "/" else joined),
                    r.params, r.query, r.fragment⟩

/-! ## Tokenizer (src/tokenizer.py) -/

/-- Error outcomes that escape the embedded Python functions. -/
inductive PyErr where
  | systemExit (code : Nat)
deriving DecidableEq

/-- Alternative `[-+]?\d*\.\d+` of the token pattern, tried at the current
position: optional sign, greedy digits, a dot, at least one digit. -/
def tryNumDec (l : List Char) : Option (List Char × List Char) :=
  let sp : List Char × List Char :=
    match l with
    | c :: rest => if c = '-' ∨ c = '+' then ([c], rest) else ([], l)
    | [] => ([], [])
  let ds := sp.2.takeWhile Char.isDigit
  match sp.2.dropWhile Char.isDigit with
  | '.' :: l3 =>
    let ds2 := l3.takeWhile Char.isDigit
    if ds2 = [] then none
    else some (sp.1 ++ ds ++ '.' :: ds2, l3.dropWhile Char.isDigit)
  | _ => none

/-- Alternative `[-+]?\d+`: optional sign, at least one digit, greedy. -/
def tryNumInt (l : List Char) : Option (List Char × List Char) :=
  let sp : List Char × List Char :=
    match l with
    | c :: rest => if c = '-' ∨ c = '+' then ([c], rest) else ([], l)
    | [] => ([], [])
  let ds := sp.2.takeWhile Char.isDigit
  if ds = [] then none else some (sp.1 ++ ds, sp.2.dropWhile Char.isDigit)

/-- Alternative `\b\w+\b`: needs a boundary before the position (the
previous character not a word character) and a nonempty greedy run of word
characters (the trailing boundary is automatic for a maximal run). -/
def tryWord (prevWord : Bool) (l : List Char) : Option (List Char × List Char) :=
  if prevWord then none
  else
    let ws := l.takeWhile isWordChar
    if ws = [] then none else some (ws, l.dropWhile isWordChar)

/-- Whether the last character of a token is a word character (the scanning
state after emitting the token). -/
def lastIsWord (t : List Char) : Bool :=
  match t.getLast? with
  | some c => isWordChar c
  | none => false

/-- Scanner for `findall` of `[-+]?\d*\.\d+|[-+]?\d+|\b\w+\b`: at each
position try the alternatives in order; on failure advance one character.
The fuel starts at the list length and each step consumes at least one
character, so the fuel never runs out before the input does. -/
def findallTokensAux : Nat → Bool → List Char → List (List Char)
  | 0, _, _ => []
  | _ + 1, _, [] => []
  | fuel + 1, prevW, c :: rest =>
    match tryNumDec (c :: rest) with
    | some (t, r) => t :: findallTokensAux fuel (lastIsWord t) r
    | none =>
      match tryNumInt (c :: rest) with
      | some (t, r) => t :: findallTokensAux fuel (lastIsWord t) r
      | none =>
        match tryWord prevW (c :: rest) with
        | some (t, r) => t :: findallTokensAux fuel (lastIsWord t) r
        | none => findallTokensAux fuel (isWordChar c) rest

/-- Model of `self.pattern.findall(line)`. -/
def findallTokens (line : List Char) : List (List Char) :=
  findallTokensAux line.length false line

/-- Model of `Tokenizer.tokenize(path)`.  The source opens its argument as a
file path: the filesystem is the oracle `fs`.  A missing file raises
`FileNotFoundError`, which the source catches only to print and call
`sys.exit(1)` — modelled as the `systemExit` error.  On success it
lowercases each line, extracts tokens, and keeps those longer than one
character. -/
def tokenize (fs : List Char → Option (List Char)) (path : List Char) :
    Except PyErr (List (List Char)) :=
  match fs path with
  | none => Except.error (PyErr.systemExit 1)
  | some contents =>
    Except.ok ((splitOnChar '\n' contents).foldr
      (fun line acc =>
        ((findallTokens (line.map Char.toLower)).filter (fun t => t.length > 1)) ++ acc)
      [])

/-- Model of `Tokenizer.compute_word_frequencies` (`collections.Counter`),
as an insertion-ordered association list. -/
def bumpCount (k : List Char) (n : Nat) : List (List Char × Nat) → List (List Char × Nat)
  | [] => [(k, n)]
  | kv :: rest => if kv.1 = k then (kv.1, kv.2 + n) :: rest else kv :: bumpCount k n rest

/-- Counter over a token list. -/
def compute_word_frequencies (tokens : List (List Char)) : List (List Char × Nat) :=
  tokens.foldl (fun acc t => bumpCount t 1 acc) []

/-- The `STOPWORDS` set of src/tokenizer.py (apostrophes written via
`apos`). -/
def apoW (a b : String) : List Char := a.toList ++ apos :: b.toList

/-- The stopword list, in source order. -/
def STOPWORDS : List (List Char) :=
  [toL "a", toL "about", toL "above", toL "after", toL "again", toL "against",
   toL "all", toL "almost", toL "also", toL "am", toL "an", toL "and",
   toL "any", toL "are", apoW "aren" "t", toL "as", toL "at", toL "be",
   toL "because", toL "been", toL "before", toL "being", toL "below",
   toL "between", toL "both", toL "but", toL "by", toL "can", toL "cannot",
   toL "could", apoW "couldn" "t", toL "did", apoW "didn" "t", toL "do",
   toL "does", apoW "doesn" "t", toL "doing", apoW "don" "t", toL "down",
   toL "during", toL "each", toL "few", toL "for", toL "from", toL "further",
   toL "had", apoW "hadn" "t", toL "has", apoW "hasn" "t", toL "have",
   apoW "haven" "t", toL "having", toL "he", apoW "he" "d", apoW "he" "ll",
   apoW "he" "s", toL "her", toL "here", apoW "here" "s", toL "hers",
   toL "herself", toL "him", toL "himself", toL "his", toL "how",
   apoW "how" "s", toL "i", apoW "i" "d", apoW "i" "ll", apoW "i" "m",
   apoW "i" "ve", toL "if", toL "in", toL "into", toL "is", apoW "isn" "t",
   toL "it", apoW "it" "s", toL "its", toL "itself", apoW "let" "s",
   toL "me", toL "more", toL "most", apoW "mustn" "t", toL "my",
   toL "myself", toL "no", toL "nor", toL "not", toL "of", toL "off",
   toL "on", toL "once", toL "only", toL "or", toL "other", toL "ought",
   toL "our", toL "ours", toL "ourselves", toL "out", toL "over", toL "own",
   toL "same", apoW "shan" "t", toL "she", apoW "she" "d", apoW "she" "ll",
   apoW "she" "s", toL "should", apoW "shouldn" "t", toL "so", toL "some",
   toL "such", toL "than", toL "that", apoW "that" "s", toL "the",
   toL "their", toL "theirs", toL "them", toL "themselves", toL "then",
   toL "there", apoW "there" "s", toL "these", toL "they", apoW "they" "d",
   apoW "they" "ll", apoW "they" "re", apoW "they" "ve", toL "this",
   toL "those", toL "through", toL "to", toL "too", toL "under", toL "until",
   toL "up", toL "very", toL "was", apoW "wasn" "t", toL "we",
   apoW "we" "d", apoW "we" "ll", apoW "we" "re", apoW "we" "ve",
   toL "were", apoW "weren" "t", toL "what", apoW "what" "s", toL "when",
   apoW "when" "s", toL "where", apoW "where" "s", toL "which", toL "while",
   toL "who", apoW "who" "s", toL "whom", toL "why", apoW "why" "s",
   toL "with", apoW "won" "t", toL "would", apoW "wouldn" "t", toL "you",
   apoW "you" "d", apoW "you" "ll", apoW "you" "re", apoW "you" "ve",
   toL "your", toL "yours", toL "yourself", toL "yourselves"]

/-! ## Crawler statistics (src/scraper.py lines 23-66) -/

/-- The fields of `CrawlerStats`. -/
structure CrawlerStats where
  unique_urls : List (List Char)
  longest_words : Nat
  longest_url : List Char
  ics_subdomains : List (List Char × Nat)
  frequent_words : List (List Char × Nat)
deriving DecidableEq

/-- Model of `CrawlerStats.__init__`. -/
def init_stats : CrawlerStats := ⟨[], 0, [], [], []⟩

/-- Python `set.add`, as a duplicate-free list. -/
def setInsert (x : List Char) (s : List (List Char)) : List (List Char) :=
  if x ∈ s then s else x :: s

/-- Model of `CrawlerStats.update_unique_urls`. -/
def update_unique_urls (url : List Char) (st : CrawlerStats) : CrawlerStats :=
  { st with unique_urls := setInsert url st.unique_urls }

/-- Model of `CrawlerStats.update_longest_page`: strict-increase update. -/
def update_longest_page (num_words : Nat) (url : List Char) (st : CrawlerStats) : CrawlerStats :=
  if num_words > st.longest_words then
    { st with longest_words := num_words, longest_url := url }
  else st

/-- Model of `CrawlerStats.check_and_update_ics_domain`: counts only the exact host
`ics.uci.edu`. -/
def check_and_update_ics_domain (url : List Char) (st : CrawlerStats) : CrawlerStats :=
  let parsed := urlparseF [] url
  if parsed.netloc = toL "ics.uci.edu" then
    { st with ics_subdomains := bumpCount parsed.netloc 1 st.ics_subdomains }
  else st

/-- Model of `CrawlerStats.update_frequent_words`: add the per-page counts of every
non-stopword token. -/
def update_frequent_words (tokens : List (List Char)) (st : CrawlerStats) : CrawlerStats :=
  let freqs := compute_word_frequencies tokens
  let fw := freqs.foldl
    (fun acc kv => if kv.1 ∈ STOPWORDS then acc else bumpCount kv.1 kv.2 acc)
    st.frequent_words
  { st with frequent_words := fw }

/-! ## Global crawl state -/

/-- Modelled from the spec: the module-level initializer of the exact-text
set `EXACT_PAGE_CONTENTS` is missing from `src/` — only its uses at
src/scraper.py lines 149 and 152 are present.  Per spec §3 and §4.6 it is a
process-wide grow-only set of previously seen page texts, initially empty. -/
def EXACT_PAGE_CONTENTS_init : List (List Char) := []

/-- The process-wide mutable state of src/scraper.py: the exact-text set,
the checksum set `PAGE_CHECKSUMS`, and the `stats` object. -/
structure CrawlState where
  exact_page_contents : List (List Char)
  page_checksums : List (List Char)
  stats : CrawlerStats
deriving DecidableEq

/-- The state at module load. -/
def init_state : CrawlState := ⟨EXACT_PAGE_CONTENTS_init, [], init_stats⟩

/-! ## Responses and pages -/

/-- Abstract result of HTML parsing: `get_text(separator=" ", strip=True)`
and the `href` attributes of `find_all("a", href=True)` in document order. -/
structure HTMLDoc where
  text : List Char
  hrefs : List (List Char)
deriving DecidableEq

/-- A page body: its byte length plus its abstract parse. -/
structure BodyBytes where
  size : Nat
  doc : HTMLDoc
deriving DecidableEq

/-- Model of `resp.raw_response`: carries `content`. -/
structure RawResponse where
  content : BodyBytes
deriving DecidableEq

/-- The cache-server response consumed by `scraper`: `resp.url` is the final
URL, `resp.status` the HTTP status, `resp.raw_response` possibly `None`. -/
structure Response where
  url : List Char
  status : Int
  raw_response : Option RawResponse
deriving DecidableEq

/-- Model of `_get_soup`: BeautifulSoup parsing is abstracted to the
`HTMLDoc` carried by the body bytes. -/
def _get_soup (raw : RawResponse) : HTMLDoc := raw.content.doc

/-- Constant `MIN_HTML_SIZE` (src/scraper.py line 14). -/
def MIN_HTML_SIZE : Nat := 1024

/-- Constant `LARGE_PAGE_THRESHOLD` (line 15). -/
def LARGE_PAGE_THRESHOLD : Nat := 5 * 1024 * 1024

/-- Constant `MIN_WORD_COUNT` (line 16). -/
def MIN_WORD_COUNT : Nat := 50

/-! ## `extract_next_links` (src/scraper.py lines 179-209) -/

/-- The `find_all` loop of `extract_next_links`: skip falsy hrefs, resolve
against the final URL, drop the fragment, skip self-links and normalized
duplicates, keep first-seen order. -/
def extractAux (selfNorm base : List Char) : List (List Char) → List (List Char) → List (List Char)
  | [], _ => []
  | href :: rest, seen =>
    if href = [] then extractAux selfNorm base rest seen
    else
      let absolute_url := urljoinF base href
      let defragged := (urldefragF absolute_url).1
      let norm := _normalize_url defragged
      if norm = selfNorm then extractAux selfNorm base rest seen
      else if norm ∈ seen then extractAux selfNorm base rest seen
      else defragged :: extractAux selfNorm base rest (norm :: seen)

/-- Model of `extract_next_links`.  A missing `raw_response` raises inside
the `try` and is caught, returning the (empty) accumulator; every other
operation in the loop is total here. -/
def extract_next_links (url : List Char) (resp : Response) : List (List Char) :=
  if resp.status ≠ 200 then []
  else
    match resp.raw_response with
    | none => []
    | some raw =>
      if raw.content.size = 0 ∨ raw.content.size < MIN_HTML_SIZE then []
      else extractAux (_normalize_url resp.url) resp.url (_get_soup raw).hrefs []

/-! ## `scraper` (src/scraper.py lines 118-177) -/

/-- Model of `scraper(url, resp)`.  `fs` is the filesystem oracle consulted
by the tokenizer's file open; `md5hex` abstracts `hashlib.md5(...).hexdigest()`.
Logging and `time.sleep` are effect-free here.  The result is either the
returned link list or the Python exception that escapes (`sys.exit` inside
the tokenizer). -/
def scraper (fs : List Char → Option (List Char)) (md5hex : List Char → List Char)
    (url : List Char) (resp : Option Response) (st : CrawlState) :
    Except PyErr (List (List Char)) × CrawlState :=
  match resp with
  | none => (Except.ok [], st)
  | some resp =>
    match resp.raw_response with
    | none => (Except.ok [], st)
    | some raw =>
      if resp.status ≠ 200 then (Except.ok [], st)
      else
        let html_size := raw.content.size
        if html_size = 0 ∨ html_size < MIN_HTML_SIZE then (Except.ok [], st)
        else
          let soup := _get_soup raw
          let page_text := soup.text
          match tokenize fs page_text with
          | Except.error e => (Except.error e, st)
          | Except.ok tokens =>
            if tokens.length < MIN_WORD_COUNT then (Except.ok [], st)
            else if page_text ∈ st.exact_page_contents then (Except.ok [], st)
            else
              let st1 := { st with exact_page_contents := setInsert page_text st.exact_page_contents }
              let checksum := md5hex page_text
              if checksum ∈ st1.page_checksums then (Except.ok [], st1)
              else
                let st2 := { st1 with page_checksums := setInsert checksum st1.page_checksums }
                if html_size > LARGE_PAGE_THRESHOLD then (Except.ok [], st2)
                else
                  let norm_url := _normalize_url url
                  let stats1 := update_unique_urls norm_url st2.stats
                  let stats2 := update_longest_page tokens.length url stats1
                  let stats3 := check_and_update_ics_domain url stats2
                  let stats4 := update_frequent_words tokens stats3
                  let st3 := { st2 with stats := stats4 }
                  let links := extract_next_links url resp
                  (Except.ok (links.filter is_valid), st3)

/-! ## Components of well-formed absolute URLs (for the normalizer claims) -/

/-- Assemble an absolute URL with authority from components; the query and
fragment separators appear exactly when those components are nonempty. -/
def assembleURL (s h p q f : List Char) : List Char :=
  s ++ ':' :: '/' :: '/' ::
    (h ++ p ++ (if q = [] then [] else '?' :: q) ++ (if f = [] then [] else '#' :: f))

/-- Well-formedness of URL components: a valid scheme (any letter case), a
nonempty authority free of delimiters, a path that is empty or absolute and
free of `?` and `#` (a `;` params separator is allowed), a query free of
`#`, and no tab/CR/LF anywhere — exactly the shapes a well-formed absolute
URL with authority can take. -/
structure WFURL (s h p q f : List Char) : Prop where
  scheme_valid : validScheme s = true
  host_ne : h ≠ []
  host_ok : ∀ c ∈ h, ¬(c = '/' ∨ c = '?' ∨ c = '#' ∨ badByte c = true)
  path_shape : p = [] ∨ ∃ r, p = '/' :: r
  path_ok : ∀ c ∈ p, ¬(c = '?' ∨ c = '#' ∨ badByte c = true)
  query_ok : ∀ c ∈ q, ¬(c = '#' ∨ badByte c = true)
  frag_ok : ∀ c ∈ f, badByte c = false

/-! ## Helpers and fixtures for the claims -/

/-- The per-link resolution of `extract_next_links`: join against the final
URL, then drop the fragment. -/
def resolveHref (base href : List Char) : List Char :=
  (urldefragF (urljoinF base href)).1

/-- The href attributes available to `extract_next_links` from a response. -/
def pageHrefs (resp : Response) : List (List Char) :=
  match resp.raw_response with
  | none => []
  | some raw => (_get_soup raw).hrefs

/-- A filesystem with no files: every `open` raises `FileNotFoundError`. -/
def fsNone : List Char → Option (List Char) := fun _ => none

/-- A filesystem on which every path reads as fifty `ab` tokens. -/
def content50 : List Char := (List.replicate 50 (toL "ab ")).flatten

/-- Filesystem oracle returning `content50` for every path. -/
def fs50 : List Char → Option (List Char) := fun _ => some content50

/-- A concrete instantiation of the digest parameter for closed runs. -/
def md5id : List Char → List Char := fun t => t

/-- A parsed page body with no links. -/
def docPlain : HTMLDoc := ⟨toL "sample body text", []⟩

/-- A 200-status response with a 2000-byte body (passes the size gates). -/
def respPage : Response := ⟨toL "https://ics.uci.edu/page", 200, some ⟨⟨2000, docPlain⟩⟩⟩

/-- A second response, different URL, byte-identical extracted text. -/
def respPage2 : Response := ⟨toL "https://ics.uci.edu/other", 200, some ⟨⟨1500, docPlain⟩⟩⟩

/-- A 200-status response whose body is under `MIN_HTML_SIZE`. -/
def respSmall : Response := ⟨toL "https://ics.uci.edu/s", 200, some ⟨⟨100, docPlain⟩⟩⟩

/-- A page with three links: a relative one, the same with a fragment, and
itself. -/
def docLinks : HTMLDoc :=
  ⟨toL "text", [toL "a.html", toL "a.html#x", toL "https://ics.uci.edu/page"]⟩

/-- A 200-status response carrying `docLinks`. -/
def respLinks : Response := ⟨toL "https://ics.uci.edu/page", 200, some ⟨⟨2000, docLinks⟩⟩⟩

/-! ## Helper lemmas -/

theorem splitAtFirst_of_not_mem {t : Char} {l : List Char} (h : t ∉ l) :
    splitAtFirst t l = none := by
  induction l with
  | nil => rfl
  | cons c rest ih =>
    simp only [List.mem_cons, not_or] at h
    simp [splitAtFirst, Ne.symm h.1, ih h.2]

theorem splitAtFirst_append {t : Char} {a b : List Char} (h : t ∉ a) :
    splitAtFirst t (a ++ t :: b) = some (a, b) := by
  induction a with
  | nil => simp [splitAtFirst]
  | cons c rest ih =>
    simp only [List.mem_cons, not_or] at h
    simp [splitAtFirst, Ne.symm h.1, ih h.2]

theorem splitAtFirst_eq_some {t : Char} {l a b : List Char}
    (h : splitAtFirst t l = some (a, b)) : l = a ++ t :: b ∧ t ∉ a := by
  induction l generalizing a b with
  | nil => simp [splitAtFirst] at h
  | cons c rest ih =>
    by_cases hc : c = t
    · subst hc
      simp [splitAtFirst] at h
      obtain ⟨rfl, rfl⟩ := h
      simp
    · simp only [splitAtFirst, if_neg hc] at h
      cases hsp : splitAtFirst t rest with
      | none => rw [hsp] at h; simp at h
      | some ab =>
        rw [hsp] at h
        obtain ⟨a', b'⟩ := ab
        simp at h
        obtain ⟨rfl, rfl⟩ := h
        obtain ⟨hr, hna⟩ := ih hsp
        subst hr
        simp [Ne.symm hc, hna]

theorem splitAtFirst_mem {t : Char} {l : List Char} (h : t ∈ l) :
    ∃ a b, splitAtFirst t l = some (a, b) := by
  induction l with
  | nil => simp at h
  | cons c rest ih =>
    by_cases hc : c = t
    · subst hc; exact ⟨[], rest, by simp [splitAtFirst]⟩
    · have hr : t ∈ rest := by
        rcases List.mem_cons.mp h with h1 | h1
        · exact absurd h1.symm hc
        · exact h1
      obtain ⟨a, b, hab⟩ := ih hr
      exact ⟨c :: a, b, by simp [splitAtFirst, hc, hab]⟩

theorem splitNetlocAux_append {h t : List Char}
    (hh : ∀ c ∈ h, ¬(c = '/' ∨ c = '?' ∨ c = '#'))
    (ht : t = [] ∨ ∃ c r, t = c :: r ∧ (c = '/' ∨ c = '?' ∨ c = '#')) :
    splitNetlocAux (h ++ t) = (h, t) := by
  induction h with
  | nil =>
    rcases ht with rfl | ⟨c, r, rfl, hc⟩
    · rfl
    · rcases hc with rfl | rfl | rfl <;> simp [splitNetlocAux]
  | cons c rest ih =>
    have hc := hh c (List.mem_cons_self c rest)
    push_neg at hc
    obtain ⟨h1, h2, h3⟩ := hc
    have ihr := ih (fun d hd => hh d (List.mem_cons_of_mem c hd))
    simp [splitNetlocAux, h1, h2, h3, ihr]

theorem validScheme_all {s : List Char} (h : validScheme s = true) :
    ∀ c ∈ s, schemeChar c = true := by
  cases s with
  | nil => simp [validScheme] at h
  | cons c rest =>
    simp only [validScheme, Bool.and_eq_true, List.all_eq_true] at h
    intro d hd
    exact h.2 d hd

theorem schemeChar_clean {c : Char} (h : schemeChar c = true) : badByte c = false := by
  cases hu : badByte c
  · rfl
  · exfalso
    simp only [badByte, Bool.or_eq_true, decide_eq_true_eq, or_assoc] at hu
    rcases hu with rfl | rfl | rfl <;> revert h <;> decide

theorem assemble_all_clean {s h p q f : List Char} (w : WFURL s h p q f) :
    ∀ c ∈ assembleURL s h p q f, badByte c = false := by
  intro c hc
  have hostU : ∀ d ∈ h, badByte d = false := by
    intro d hd
    have hx := w.host_ok d hd
    push_neg at hx
    simpa using hx.2.2.2
  have pathU : ∀ d ∈ p, badByte d = false := by
    intro d hd
    have hx := w.path_ok d hd
    push_neg at hx
    simpa using hx.2.2
  have queryU : ∀ d ∈ q, badByte d = false := by
    intro d hd
    have hx := w.query_ok d hd
    push_neg at hx
    simpa using hx.2
  simp only [assembleURL, List.mem_append, List.mem_cons, or_assoc] at hc
  rcases hc with hs | rfl | rfl | rfl | hh | hp | hq | hf
  · exact schemeChar_clean (validScheme_all w.scheme_valid c hs)
  · decide
  · decide
  · decide
  · exact hostU c hh
  · exact pathU c hp
  · by_cases hqe : q = []
    · simp [hqe] at hq
    · simp only [if_neg hqe, List.mem_cons] at hq
      rcases hq with rfl | hq
      · decide
      · exact queryU c hq
  · by_cases hfe : f = []
    · simp [hfe] at hf
    · simp only [if_neg hfe, List.mem_cons] at hf
      rcases hf with rfl | hf
      · decide
      · exact w.frag_ok c hf

theorem assemble_filter {s h p q f : List Char} (w : WFURL s h p q f) :
    (assembleURL s h p q f).filter (fun c => !badByte c) = assembleURL s h p q f := by
  rw [List.filter_eq_self]
  intro a ha
  simp [assemble_all_clean w a ha]

theorem take2_cons_cons (a b : Char) (l : List Char) : List.take 2 (a :: b :: l) = [a, b] := rfl

theorem drop2_cons_cons (a b : Char) (l : List Char) : List.drop 2 (a :: b :: l) = l := rfl

theorem toL_slashslash : toL "//" = ['/', '/'] := rfl

theorem urlsplitF_assemble (s h p q f : List Char) (w : WFURL s h p q f) :
    urlsplitF [] (assembleURL s h p q f) = ⟨s.map Char.toLower, h, p, q, f⟩ := by
  have hcolon : ':' ∉ s := by
    intro hmem
    have hs := validScheme_all w.scheme_valid ':' hmem
    revert hs
    decide
  have hh : ∀ c ∈ h, ¬(c = '/' ∨ c = '?' ∨ c = '#') := by
    intro c hc hor
    apply w.host_ok c hc
    rcases hor with h1 | h1 | h1
    · exact Or.inl h1
    · exact Or.inr (Or.inl h1)
    · exact Or.inr (Or.inr (Or.inl h1))
  have hpq : ∀ c ∈ p, c ≠ '?' := by
    intro c hc
    have hx := w.path_ok c hc
    push_neg at hx
    exact hx.1
  have hpf : ∀ c ∈ p, c ≠ '#' := by
    intro c hc
    have hx := w.path_ok c hc
    push_neg at hx
    exact hx.2.1
  have hqf : ∀ c ∈ q, c ≠ '#' := by
    intro c hc
    have hx := w.query_ok c hc
    push_neg at hx
    exact hx.1
  unfold urlsplitF
  rw [assemble_filter w]
  simp only [assembleURL, List.append_assoc]
  rw [splitAtFirst_append hcolon]
  simp only [w.scheme_valid, if_true, List.filter_nil,
             take2_cons_cons, drop2_cons_cons, toL_slashslash]
  by_cases hqe : q = []
  · by_cases hfe : f = []
    · subst hqe
      subst hfe
      have ht : p = [] ∨ ∃ c r, p = c :: r ∧ (c = '/' ∨ c = '?' ∨ c = '#') := by
        rcases w.path_shape with rfl | ⟨r, rfl⟩
        · left; rfl
        · right; exact ⟨'/', r, rfl, Or.inl rfl⟩
      simp only [if_true, List.nil_append, List.append_nil, eq_self_iff_true]
      rw [splitNetlocAux_append hh ht]
      rw [splitAtFirst_of_not_mem (fun hm => hpf '#' hm rfl)]
      rw [splitAtFirst_of_not_mem (fun hm => hpq '?' hm rfl)]
    · subst hqe
      have ht : p ++ '#' :: f = [] ∨
          ∃ c r, p ++ '#' :: f = c :: r ∧ (c = '/' ∨ c = '?' ∨ c = '#') := by
        rcases w.path_shape with rfl | ⟨r, rfl⟩
        · right; exact ⟨'#', f, rfl, Or.inr (Or.inr rfl)⟩
        · right; exact ⟨'/', r ++ '#' :: f, rfl, Or.inl rfl⟩
      simp only [if_true, if_neg hfe, List.nil_append, List.append_nil, eq_self_iff_true]
      rw [splitNetlocAux_append hh ht]
      rw [splitAtFirst_append (fun hm => hpf '#' hm rfl)]
      rw [splitAtFirst_of_not_mem (fun hm => hpq '?' hm rfl)]
  · by_cases hfe : f = []
    · subst hfe
      have ht : p ++ '?' :: q = [] ∨
          ∃ c r, p ++ '?' :: q = c :: r ∧ (c = '/' ∨ c = '?' ∨ c = '#') := by
        rcases w.path_shape with rfl | ⟨r, rfl⟩
        · right; exact ⟨'?', q, rfl, Or.inr (Or.inl rfl)⟩
        · right; exact ⟨'/', r ++ '?' :: q, rfl, Or.inl rfl⟩
      simp only [if_true, if_neg hqe, List.nil_append, List.append_nil, eq_self_iff_true]
      rw [splitNetlocAux_append hh ht]
      have hnf : '#' ∉ p ++ '?' :: q := by
        intro hm
        simp only [List.mem_append, List.mem_cons] at hm
        rcases hm with hm | hm | hm
        · exact hpf '#' hm rfl
        · exact absurd hm (by decide)
        · exact hqf '#' hm rfl
      rw [splitAtFirst_of_not_mem hnf]
      rw [splitAtFirst_append (fun hm => hpq '?' hm rfl)]
    · have ht : p ++ ('?' :: q ++ '#' :: f) = [] ∨
          ∃ c r, p ++ ('?' :: q ++ '#' :: f) = c :: r ∧ (c = '/' ∨ c = '?' ∨ c = '#') := by
        rcases w.path_shape with rfl | ⟨r, rfl⟩
        · right; exact ⟨'?', q ++ '#' :: f, rfl, Or.inr (Or.inl rfl)⟩
        · right; exact ⟨'/', r ++ ('?' :: q ++ '#' :: f), rfl, Or.inl rfl⟩
      simp only [if_neg hqe, if_neg hfe]
      rw [splitNetlocAux_append hh ht]
      have hnf : '#' ∉ p ++ '?' :: q := by
        intro hm
        simp only [List.mem_append, List.mem_cons] at hm
        rcases hm with hm | hm | hm
        · exact hpf '#' hm rfl
        · exact absurd hm (by decide)
        · exact hqf '#' hm rfl
      rw [show (p ++ ('?' :: q ++ '#' :: f)) = (p ++ '?' :: q) ++ '#' :: f from by simp]
      rw [splitAtFirst_append hnf]
      rw [splitAtFirst_append (fun hm => hpq '?' hm rfl)]

theorem semi_not_mem_snd {p : List Char} (h : ';' ∉ p) : ';' ∉ (splitAtLastSlash p).2 := by
  unfold splitAtLastSlash
  cases hsp : splitAtFirst '/' p.reverse with
  | none => simp
  | some ab =>
    obtain ⟨rb, ra⟩ := ab
    simp only
    intro hm
    apply h
    have hdecomp := (splitAtFirst_eq_some hsp).1
    have hrev : ';' ∈ p.reverse := by
      rw [hdecomp]
      exact List.mem_append_left _ (by simpa using hm)
    simpa using hrev

theorem splitparams_no_semi {p : List Char} (h : ';' ∉ p) : splitparams p = (p, []) := by
  unfold splitparams
  cases hs : p.contains '/' with
  | false =>
    simp only [hs, Bool.false_eq_true, if_false]
    rw [splitAtFirst_of_not_mem h]
  | true =>
    simp only [hs, if_true]
    rw [splitAtFirst_of_not_mem (semi_not_mem_snd h)]

theorem urlparseF_assemble (s h p q f : List Char) (w : WFURL s h p q f) :
    urlparseF [] (assembleURL s h p q f) =
      ⟨s.map Char.toLower, h, (splitparams p).1, (splitparams p).2, q, f⟩ := by
  unfold urlparseF
  rw [urlsplitF_assemble s h p q f w]

theorem urlunsplit_wf (s h u q f : List Char) (hs : s ≠ []) (hh : h ≠ []) :
    urlunsplit ⟨s, h, u, q, f⟩ =
      assembleURL s h (if u ≠ [] && u.head? ≠ some '/' then '/' :: u else u) q f := by
  unfold urlunsplit assembleURL
  by_cases hq : q = [] <;>
    by_cases hf : f = [] <;>
      by_cases hu : (u ≠ [] && u.head? ≠ some '/') = true <;>
        simp [hs, hh, hq, hf, hu, List.append_assoc]

theorem dropWhile_self_idem (pr : Char → Bool) (l : List Char) :
    List.dropWhile pr (List.dropWhile pr l) = List.dropWhile pr l := by
  induction l with
  | nil => rfl
  | cons c rest ih =>
    by_cases hc : pr c = true
    · simp [List.dropWhile_cons, hc, ih]
    · simp [List.dropWhile_cons, hc]

theorem rstripSlashes_idem (p : List Char) :
    rstripSlashes (rstripSlashes p) = rstripSlashes p := by
  unfold rstripSlashes
  rw [List.reverse_reverse, dropWhile_self_idem]

theorem rstripSlashes_front (p : List Char) : ∃ t, rstripSlashes p ++ t = p := by
  unfold rstripSlashes
  refine ⟨(p.reverse.takeWhile (fun c => c = '/')).reverse, ?_⟩
  rw [← List.reverse_append, List.takeWhile_append_dropWhile, List.reverse_reverse]

theorem rstripSlashes_subset {p : List Char} : ∀ c ∈ rstripSlashes p, c ∈ p := by
  obtain ⟨t, ht⟩ := rstripSlashes_front p
  intro c hc
  rw [← ht]
  exact List.mem_append_left t hc

theorem rstripSlashes_shape {p : List Char} (hp : p = [] ∨ ∃ r, p = '/' :: r) :
    rstripSlashes p = [] ∨ ∃ r, rstripSlashes p = '/' :: r := by
  obtain ⟨t, ht⟩ := rstripSlashes_front p
  cases hrp : rstripSlashes p with
  | nil => exact Or.inl rfl
  | cons c rest =>
    right
    rw [hrp] at ht
    rcases hp with rfl | ⟨r, hr⟩
    · simp at ht
    · rw [hr, List.cons_append] at ht
      injection ht with h1 h2
      exact ⟨rest, by rw [h1]⟩

theorem validScheme_ne_nil {s : List Char} (h : validScheme s = true) : s ≠ [] := by
  intro he
  subst he
  simp [validScheme] at h

theorem map_toLower_ne_nil {s : List Char} (hs : s ≠ []) : s.map Char.toLower ≠ [] := by
  intro hm
  exact hs (List.map_eq_nil_iff.mp hm)

theorem normalize_assembleURL (s h p q f : List Char) (w : WFURL s h p q f) :
    _normalize_url (assembleURL s h p q f) =
      assembleURL (s.map Char.toLower) h (normPath p) q f := by
  unfold _normalize_url
  rw [urlparseF_assemble s h p q f w]
  dsimp only
  unfold urlunparse
  dsimp only
  rw [urlunsplit_wf _ _ _ _ _ (map_toLower_ne_nil (validScheme_ne_nil w.scheme_valid))
      w.host_ne]
  rfl

theorem toNat_ofNat_valid {n : Nat} (h : n.isValidChar) : (Char.ofNat n).toNat = n := by
  rw [Char.ofNat, dif_pos h]
  rfl

theorem toLower_ne_hash {c : Char} (hc : c ≠ '#') : Char.toLower c ≠ '#' := by
  unfold Char.toLower
  simp only
  split
  · rename_i hrange
    intro heq
    have hval : (c.toNat + 32).isValidChar := Or.inl (by omega)
    have hnat := congrArg Char.toNat heq
    rw [toNat_ofNat_valid hval] at hnat
    have h35 : ('#' : Char).toNat = 35 := rfl
    omega
  · exact hc

theorem uint32_le_iff {a b : UInt32} : a ≤ b ↔ a.toNat ≤ b.toNat := by
  rw [UInt32.le_def, BitVec.le_def]
  exact Iff.rfl

theorem isUpper_iff_toNat {c : Char} : c.isUpper = true ↔ 65 ≤ c.toNat ∧ c.toNat ≤ 90 := by
  unfold Char.isUpper
  rw [Bool.and_eq_true, decide_eq_true_eq, decide_eq_true_eq, ge_iff_le,
      uint32_le_iff, uint32_le_iff]
  exact Iff.rfl

theorem isLower_iff_toNat {c : Char} : c.isLower = true ↔ 97 ≤ c.toNat ∧ c.toNat ≤ 122 := by
  unfold Char.isLower
  rw [Bool.and_eq_true, decide_eq_true_eq, decide_eq_true_eq, ge_iff_le,
      uint32_le_iff, uint32_le_iff]
  exact Iff.rfl

theorem isDigit_iff_toNat {c : Char} : c.isDigit = true ↔ 48 ≤ c.toNat ∧ c.toNat ≤ 57 := by
  unfold Char.isDigit
  rw [Bool.and_eq_true, decide_eq_true_eq, decide_eq_true_eq, ge_iff_le,
      uint32_le_iff, uint32_le_iff]
  exact Iff.rfl

theorem toLower_eq_self {c : Char} (h : ¬(65 ≤ c.toNat ∧ c.toNat ≤ 90)) :
    Char.toLower c = c := by
  unfold Char.toLower
  simp only
  rw [if_neg h]

theorem toLower_toNat_of_upper {c : Char} (h : 65 ≤ c.toNat ∧ c.toNat ≤ 90) :
    (Char.toLower c).toNat = c.toNat + 32 := by
  unfold Char.toLower
  simp only
  rw [if_pos h, toNat_ofNat_valid (Or.inl (by omega))]

theorem toLower_toLower (c : Char) : Char.toLower (Char.toLower c) = Char.toLower c := by
  by_cases h : 65 ≤ c.toNat ∧ c.toNat ≤ 90
  · apply toLower_eq_self
    rw [toLower_toNat_of_upper h]
    omega
  · rw [toLower_eq_self h, toLower_eq_self h]

theorem toLower_isAlpha {c : Char} (h : c.isAlpha = true) :
    (Char.toLower c).isAlpha = true := by
  unfold Char.isAlpha at h ⊢
  rw [Bool.or_eq_true] at h ⊢
  rcases h with h | h
  · right
    rw [isUpper_iff_toNat] at h
    rw [isLower_iff_toNat, toLower_toNat_of_upper h]
    omega
  · right
    rw [isLower_iff_toNat] at h
    rw [toLower_eq_self (by omega), isLower_iff_toNat]
    exact h

theorem toLower_schemeChar {c : Char} (h : schemeChar c = true) :
    schemeChar (Char.toLower c) = true := by
  unfold schemeChar at h ⊢
  simp only [Bool.or_eq_true, decide_eq_true_eq, or_assoc] at h ⊢
  rcases h with h | h | rfl | rfl | rfl
  · exact Or.inl (toLower_isAlpha h)
  · rw [isDigit_iff_toNat] at h
    rw [toLower_eq_self (by omega)]
    right
    left
    rw [isDigit_iff_toNat]
    exact h
  · decide
  · decide
  · decide

theorem map_toLower_idem (s : List Char) :
    (s.map Char.toLower).map Char.toLower = s.map Char.toLower := by
  induction s with
  | nil => rfl
  | cons c rest ih => simp [toLower_toLower c, ih]

theorem validScheme_toLower {s : List Char} (h : validScheme s = true) :
    validScheme (s.map Char.toLower) = true := by
  cases s with
  | nil => simp [validScheme] at h
  | cons c rest =>
    simp only [validScheme, Bool.and_eq_true, List.all_eq_true] at h
    simp only [List.map_cons, validScheme, Bool.and_eq_true, List.all_eq_true]
    refine ⟨toLower_isAlpha h.1, ?_⟩
    intro x hx
    rw [← List.map_cons] at hx
    obtain ⟨y, hy, rfl⟩ := List.mem_map.mp hx
    exact toLower_schemeChar (h.2 y hy)

theorem splitAtFirst_none_not_mem {t : Char} {l : List Char}
    (h : splitAtFirst t l = none) : t ∉ l := by
  intro hm
  obtain ⟨a, b, hab⟩ := splitAtFirst_mem hm
  rw [hab] at h
  cases h

theorem splitNetlocAux_fst_no_hash (l : List Char) : '#' ∉ (splitNetlocAux l).1 := by
  induction l with
  | nil => simp [splitNetlocAux]
  | cons c rest ih =>
    by_cases hc : (c = '/' || c = '?' || c = '#') = true
    · simp [splitNetlocAux, hc]
    · simp only [splitNetlocAux, hc, Bool.false_eq_true, if_false, List.mem_cons]
      intro hm
      rcases hm with rfl | hm
      · simp at hc
      · exact ih hm

theorem map_toLower_no_hash {l : List Char} (h : '#' ∉ l) : '#' ∉ l.map Char.toLower := by
  intro hm
  obtain ⟨c, hc, heq⟩ := List.mem_map.mp hm
  exact toLower_ne_hash (fun hcc => h (hcc ▸ hc)) heq

theorem scheme_choice_no_hash (ds' u' : List Char) (hds : '#' ∉ ds') :
    '#' ∉ (match splitAtFirst ':' u' with
           | some (pre, post) =>
             if validScheme pre then (pre.map Char.toLower, post) else (ds', u')
           | none => (ds', u')).1 := by
  rcases hsp : splitAtFirst ':' u' with _ | ⟨pre, post⟩
  · simpa using hds
  · by_cases hv : validScheme pre = true
    · simp only [hsp, hv, if_true]
      refine map_toLower_no_hash (fun hm => ?_)
      have hx := validScheme_all hv '#' hm
      revert hx
      decide
    · simp only [hsp, hv, Bool.false_eq_true, if_false]
      exact hds

theorem netloc_choice_no_hash (r : List Char) :
    '#' ∉ (if r.take 2 = toL "//" then splitNetlocAux (r.drop 2) else ([], r)).1 := by
  by_cases h : r.take 2 = toL "//"
  · simp only [if_pos h]
    exact splitNetlocAux_fst_no_hash _
  · simp only [if_neg h]
    exact List.not_mem_nil '#'

theorem frag_fst_no_hash (r1 : List Char) :
    '#' ∉ (match splitAtFirst '#' r1 with
           | some (a, b) => (a, b)
           | none => (r1, [])).1 := by
  rcases hsp : splitAtFirst '#' r1 with _ | ⟨a, b⟩
  · simp only [hsp]
    exact splitAtFirst_none_not_mem hsp
  · simp only [hsp]
    exact (splitAtFirst_eq_some hsp).2

theorem query_split_no_hash {r2 : List Char} (h2 : '#' ∉ r2) :
    '#' ∉ (match splitAtFirst '?' r2 with
           | some (a, b) => (a, b)
           | none => (r2, [])).1 ∧
    '#' ∉ (match splitAtFirst '?' r2 with
           | some (a, b) => (a, b)
           | none => (r2, [])).2 := by
  rcases hsp : splitAtFirst '?' r2 with _ | ⟨a, b⟩
  · simp only [hsp]
    exact ⟨h2, by simp⟩
  · simp only [hsp]
    have hd := (splitAtFirst_eq_some hsp).1
    subst hd
    constructor
    · exact fun hm => h2 (List.mem_append_left _ hm)
    · exact fun hm => h2 (List.mem_append_right _ (List.mem_cons_of_mem _ hm))

theorem urlsplitF_no_hash (ds u : List Char) (hds : '#' ∉ ds) :
    '#' ∉ (urlsplitF ds u).scheme ∧ '#' ∉ (urlsplitF ds u).netloc ∧
    '#' ∉ (urlsplitF ds u).path ∧ '#' ∉ (urlsplitF ds u).query := by
  have hds' : '#' ∉ ds.filter (fun c => !badByte c) :=
    fun hm => hds (List.mem_of_mem_filter hm)
  exact ⟨scheme_choice_no_hash _ _ hds', netloc_choice_no_hash _,
         (query_split_no_hash (frag_fst_no_hash _)).1,
         (query_split_no_hash (frag_fst_no_hash _)).2⟩

theorem splitparams_subsets (p : List Char) :
    (∀ c ∈ (splitparams p).1, c ∈ p) ∧ (∀ c ∈ (splitparams p).2, c ∈ p) := by
  unfold splitparams
  cases hcont : p.contains '/' with
  | false =>
    simp only [hcont, Bool.false_eq_true, if_false]
    rcases hsp : splitAtFirst ';' p with _ | ⟨a, b⟩
    · simp
    · have hd := (splitAtFirst_eq_some hsp).1
      subst hd
      constructor
      · exact fun c hm => List.mem_append_left _ hm
      · exact fun c hm => List.mem_append_right _ (List.mem_cons_of_mem _ hm)
  | true =>
    simp only [hcont, if_true]
    have hmem : '/' ∈ p.reverse := by
      rw [List.mem_reverse]
      exact List.elem_iff.mp hcont
    obtain ⟨rb, ra, hsp⟩ := splitAtFirst_mem hmem
    have hp : p = ra.reverse ++ '/' :: rb.reverse := by
      have hd := (splitAtFirst_eq_some hsp).1
      have hrev := congrArg List.reverse hd
      rw [List.reverse_reverse] at hrev
      rw [hrev]
      simp [List.reverse_append]
    unfold splitAtLastSlash
    simp only [hsp]
    rcases hsp2 : splitAtFirst ';' rb.reverse with _ | ⟨b1, b2⟩
    · simp
    · have hd2 := (splitAtFirst_eq_some hsp2).1
      simp only
      constructor
      · intro c hm
        rw [hp, hd2]
        simp only [List.mem_append, List.mem_cons] at hm ⊢
        rcases hm with hm | hm | hm
        · exact Or.inl hm
        · exact Or.inr (Or.inl hm)
        · exact Or.inr (Or.inr (Or.inl hm))
      · intro c hm
        rw [hp, hd2]
        simp only [List.mem_append, List.mem_cons]
        exact Or.inr (Or.inr (Or.inr (Or.inr hm)))

theorem urlparseF_no_hash (ds u : List Char) (hds : '#' ∉ ds) :
    '#' ∉ (urlparseF ds u).scheme ∧ '#' ∉ (urlparseF ds u).netloc ∧
    '#' ∉ (urlparseF ds u).path ∧ '#' ∉ (urlparseF ds u).params ∧
    '#' ∉ (urlparseF ds u).query := by
  obtain ⟨h1, h2, h3, h4⟩ := urlsplitF_no_hash ds u hds
  exact ⟨h1, h2,
         fun hm => h3 ((splitparams_subsets _).1 '#' hm),
         fun hm => h3 ((splitparams_subsets _).2 '#' hm),
         h4⟩

theorem not_mem_ite {c : Prop} [Decidable c] {a b : List Char} {x : Char}
    (ha : x ∉ a) (hb : x ∉ b) : x ∉ (if c then a else b) := by
  by_cases h : c <;> simp [h, ha, hb]

theorem urlunsplit_no_hash {s n p q : List Char} (hs : '#' ∉ s) (hn : '#' ∉ n)
    (hp : '#' ∉ p) (hq : '#' ∉ q) :
    '#' ∉ urlunsplit ⟨s, n, p, q, []⟩ := by
  unfold urlunsplit
  simp only
  rw [if_neg (by simp : ¬(([] : List Char) ≠ []))]
  have hin : '#' ∉ (if (p ≠ [] && p.head? ≠ some '/') = true then '/' :: p else p) := by
    refine not_mem_ite ?_ hp
    simp only [List.mem_cons]
    intro hm
    rcases hm with h | h
    · exact absurd h (by decide)
    · exact hp h
  have hurl1 : '#' ∉ (if (n ≠ [] || p.take 2 = toL "//") = true then
      '/' :: '/' :: (n ++ (if (p ≠ [] && p.head? ≠ some '/') = true then '/' :: p else p))
      else p) := by
    refine not_mem_ite ?_ hp
    simp only [List.mem_cons, List.mem_append]
    intro hm
    rcases hm with h | h | h | h
    · exact absurd h (by decide)
    · exact absurd h (by decide)
    · exact hn h
    · exact hin h
  have hurl2 : '#' ∉ (if s ≠ [] then
      s ++ ':' :: (if (n ≠ [] || p.take 2 = toL "//") = true then
        '/' :: '/' :: (n ++ (if (p ≠ [] && p.head? ≠ some '/') = true then '/' :: p else p))
        else p)
      else (if (n ≠ [] || p.take 2 = toL "//") = true then
        '/' :: '/' :: (n ++ (if (p ≠ [] && p.head? ≠ some '/') = true then '/' :: p else p))
        else p)) := by
    refine not_mem_ite ?_ hurl1
    simp only [List.mem_append, List.mem_cons]
    intro hm
    rcases hm with h | h | h
    · exact hs h
    · exact absurd h (by decide)
    · exact hurl1 h
  refine not_mem_ite ?_ hurl2
  simp only [List.mem_append, List.mem_cons]
  intro hm
  rcases hm with h | h | h
  · exact hurl2 h
  · exact absurd h (by decide)
  · exact hq h

theorem urldefragF_no_hash (u : List Char) : '#' ∉ (urldefragF u).1 := by
  unfold urldefragF
  cases hc : u.contains '#' with
  | false =>
    simp only [hc, Bool.false_eq_true, if_false]
    intro hm
    have : u.contains '#' = true := List.elem_iff.mpr hm
    rw [hc] at this
    cases this
  | true =>
    simp only [hc, if_true]
    obtain ⟨h1, h2, h3, h4, h5⟩ := urlparseF_no_hash [] u (by simp)
    unfold urlunparse
    simp only
    have hpp : '#' ∉ (if (urlparseF [] u).params ≠ [] then
        (urlparseF [] u).path ++ ';' :: (urlparseF [] u).params
        else (urlparseF [] u).path) := by
      refine not_mem_ite ?_ h3
      simp only [List.mem_append, List.mem_cons]
      intro hm
      rcases hm with h | h | h
      · exact h3 h
      · exact absurd h (by decide)
      · exact h4 h
    exact urlunsplit_no_hash h1 h2 hpp h5

theorem extractAux_norms {selfNorm base : List Char} :
    ∀ (hs seen : List (List Char)) (x : List Char),
      x ∈ extractAux selfNorm base hs seen →
      _normalize_url x ∉ seen ∧ _normalize_url x ≠ selfNorm := by
  intro hs
  induction hs with
  | nil =>
    intro seen x hx
    simp [extractAux] at hx
  | cons href rest ih =>
    intro seen x hx
    unfold extractAux at hx
    by_cases h0 : href = []
    · rw [if_pos h0] at hx
      exact ih seen x hx
    · rw [if_neg h0] at hx
      simp only at hx
      by_cases h1 : _normalize_url (urldefragF (urljoinF base href)).1 = selfNorm
      · rw [if_pos h1] at hx
        exact ih seen x hx
      · rw [if_neg h1] at hx
        by_cases h2 : _normalize_url (urldefragF (urljoinF base href)).1 ∈ seen
        · rw [if_pos h2] at hx
          exact ih seen x hx
        · rw [if_neg h2] at hx
          rcases List.mem_cons.mp hx with rfl | hx
          · exact ⟨h2, h1⟩
          · obtain ⟨ha, hb⟩ := ih _ x hx
            exact ⟨fun hm => ha (List.mem_cons_of_mem _ hm), hb⟩

theorem extractAux_pairwise {selfNorm base : List Char} :
    ∀ (hs seen : List (List Char)),
      List.Pairwise (fun a b => _normalize_url a ≠ _normalize_url b)
        (extractAux selfNorm base hs seen) := by
  intro hs
  induction hs with
  | nil =>
    intro seen
    simp [extractAux]
  | cons href rest ih =>
    intro seen
    unfold extractAux
    by_cases h0 : href = []
    · rw [if_pos h0]
      exact ih seen
    · rw [if_neg h0]
      simp only
      by_cases h1 : _normalize_url (urldefragF (urljoinF base href)).1 = selfNorm
      · rw [if_pos h1]
        exact ih seen
      · rw [if_neg h1]
        by_cases h2 : _normalize_url (urldefragF (urljoinF base href)).1 ∈ seen
        · rw [if_pos h2]
          exact ih seen
        · rw [if_neg h2]
          refine List.Pairwise.cons ?_ (ih _)
          intro y hy heq
          have hnm := (extractAux_norms rest _ y hy).1
          exact hnm (heq ▸ List.mem_cons_self _ _)

theorem extractAux_no_hash {selfNorm base : List Char} :
    ∀ (hs seen : List (List Char)) (x : List Char),
      x ∈ extractAux selfNorm base hs seen → '#' ∉ x := by
  intro hs
  induction hs with
  | nil =>
    intro seen x hx
    simp [extractAux] at hx
  | cons href rest ih =>
    intro seen x hx
    unfold extractAux at hx
    by_cases h0 : href = []
    · rw [if_pos h0] at hx
      exact ih seen x hx
    · rw [if_neg h0] at hx
      simp only at hx
      by_cases h1 : _normalize_url (urldefragF (urljoinF base href)).1 = selfNorm
      · rw [if_pos h1] at hx
        exact ih seen x hx
      · rw [if_neg h1] at hx
        by_cases h2 : _normalize_url (urldefragF (urljoinF base href)).1 ∈ seen
        · rw [if_pos h2] at hx
          exact ih seen x hx
        · rw [if_neg h2] at hx
          rcases List.mem_cons.mp hx with rfl | hx
          · exact urldefragF_no_hash _
          · exact ih _ x hx

theorem extractAux_sublist {selfNorm base : List Char} :
    ∀ (hs seen : List (List Char)),
      (extractAux selfNorm base hs seen).Sublist (hs.map (resolveHref base)) := by
  intro hs
  induction hs with
  | nil =>
    intro seen
    simp [extractAux]
  | cons href rest ih =>
    intro seen
    unfold extractAux
    simp only [List.map_cons]
    by_cases h0 : href = []
    · rw [if_pos h0]
      exact (ih seen).cons _
    · rw [if_neg h0]
      by_cases h1 : _normalize_url (urldefragF (urljoinF base href)).1 = selfNorm
      · rw [if_pos h1]
        exact (ih seen).cons _
      · rw [if_neg h1]
        by_cases h2 : _normalize_url (urldefragF (urljoinF base href)).1 ∈ seen
        · rw [if_pos h2]
          exact (ih seen).cons _
        · rw [if_neg h2]
          exact (ih _).cons₂ _

/-! ## Claim theorems -/

/-- Claim C3, counterexample: the claim says `_normalize_url` drops the
fragment, removes a single trailing slash and leaves the scheme untouched.
On `https://ics.uci.edu/a/#b` the code keeps the fragment; on
`http://ics.uci.edu/a//` it removes both trailing slashes, not one; on
`HTTP://ics.uci.edu/a/` it lowercases the scheme; and on
`http://ics.uci.edu/a/;x` it moves the slash before the `;` parameters
rather than leaving the slash-free path alone. -/
theorem claim3_normalizer_counterexample :
    _normalize_url (toL "https://ics.uci.edu/a/#b") = toL "https://ics.uci.edu/a#b" ∧
    _normalize_url (toL "https://ics.uci.edu/a/#b") ≠ toL "https://ics.uci.edu/a" ∧
    _normalize_url (toL "http://ics.uci.edu/a//") = toL "http://ics.uci.edu/a" ∧
    _normalize_url (toL "http://ics.uci.edu/a//") ≠ toL "http://ics.uci.edu/a/" ∧
    _normalize_url (toL "HTTP://ics.uci.edu/a/") = toL "http://ics.uci.edu/a" ∧
    _normalize_url (toL "http://ics.uci.edu/a/;x") = toL "http://ics.uci.edu/a;x" := by
  refine ⟨?_, ?_, ?_, ?_, ?_, ?_⟩ <;> decide

/-- Claim C3, amended: for every well-formed absolute URL (assembled from a
scheme of any letter case, authority, path — `;` parameters allowed —,
query and fragment), `_normalize_url` lowercases the scheme, leaves
authority, query and fragment untouched (the fragment is preserved, not
dropped), and rewrites the path by `normPath`: the parameters component
(from the first `;` of the final segment) is preserved while every trailing
slash of the part before it is removed, restoring a leading slash if
stripping removed everything. -/
theorem claim3_normalizer_amended (s h p q f : List Char) (w : WFURL s h p q f) :
    _normalize_url (assembleURL s h p q f) =
      assembleURL (s.map Char.toLower) h (normPath p) q f :=
  normalize_assembleURL s h p q f w

/-- Witness for the amended C3 at a concrete URL with an uppercase scheme,
a `;` parameters component, a trailing slash before it, and a fragment. -/
theorem claim3_normalizer_amended_witness :
    _normalize_url (assembleURL (toL "HTTP") (toL "ics.uci.edu") (toL "/a/;x") [] (toL "b")) =
      assembleURL ((toL "HTTP").map Char.toLower) (toL "ics.uci.edu")
        (normPath (toL "/a/;x")) [] (toL "b") :=
  claim3_normalizer_amended (toL "HTTP") (toL "ics.uci.edu") (toL "/a/;x") [] (toL "b")
    ⟨by decide, by decide, by decide, Or.inr ⟨toL "a/;x", by decide⟩,
     by decide, by decide, by decide⟩

/-- Claim C4, counterexample: normalization is not idempotent on the code.
On the well-formed absolute URL `http://ics.uci.edu/x;/`, one normalization
yields `http://ics.uci.edu/x;` (the `;` sits before the last slash, so no
parameters are split and only the slash is stripped), but normalizing that
result splits an empty parameters component at the now-final `;` and drops
it, yielding `http://ics.uci.edu/x`. -/
theorem claim4_normalize_idempotent_counterexample :
    _normalize_url (toL "http://ics.uci.edu/x;/") = toL "http://ics.uci.edu/x;" ∧
    _normalize_url (toL "http://ics.uci.edu/x;") = toL "http://ics.uci.edu/x" ∧
    _normalize_url (_normalize_url (toL "http://ics.uci.edu/x;/")) ≠
      _normalize_url (toL "http://ics.uci.edu/x;/") := by
  refine ⟨?_, ?_, ?_⟩ <;> decide

/-- Claim C4, amended: URL normalization is idempotent for every well-formed
absolute URL whose path contains no `;` (no parameters component):
`_normalize_url (_normalize_url u) = _normalize_url u`.  With a `;` in the
path the counterexample applies: one normalization can strip slashes so
that the path ends in a bare `;`, which a second normalization drops. -/
theorem claim4_normalize_idempotent (s h p q f : List Char) (w : WFURL s h p q f)
    (hsemi : ';' ∉ p) :
    _normalize_url (_normalize_url (assembleURL s h p q f)) =
      _normalize_url (assembleURL s h p q f) := by
  have hnp : normPath p = rstripSlashes p := by
    unfold normPath
    rw [splitparams_no_semi hsemi]
    dsimp only
    rcases rstripSlashes_shape w.path_shape with he | ⟨r, hr⟩
    · rw [he]
      simp
    · rw [hr]
      simp
  rw [normalize_assembleURL s h p q f w, hnp]
  have w2 : WFURL (s.map Char.toLower) h (rstripSlashes p) q f :=
    ⟨validScheme_toLower w.scheme_valid, w.host_ne, w.host_ok,
     rstripSlashes_shape w.path_shape,
     fun c hc => w.path_ok c (rstripSlashes_subset c hc), w.query_ok, w.frag_ok⟩
  rw [normalize_assembleURL _ _ _ _ _ w2]
  have hsemi2 : ';' ∉ rstripSlashes p := fun hm => hsemi (rstripSlashes_subset ';' hm)
  have hnp2 : normPath (rstripSlashes p) = rstripSlashes (rstripSlashes p) := by
    unfold normPath
    rw [splitparams_no_semi hsemi2]
    dsimp only
    rcases rstripSlashes_shape (rstripSlashes_shape w.path_shape) with he | ⟨r, hr⟩
    · rw [he]
      simp
    · rw [hr]
      simp
  rw [hnp2, rstripSlashes_idem, map_toLower_idem]

/-- Witness for the amended C4 at a concrete URL with an uppercase scheme
and a semicolon-free path. -/
theorem claim4_normalize_idempotent_witness :
    _normalize_url (_normalize_url (assembleURL (toL "HTTP") (toL "cs.uci.edu")
        (toL "/x/y/") (toL "a=1") [])) =
      _normalize_url (assembleURL (toL "HTTP") (toL "cs.uci.edu") (toL "/x/y/") (toL "a=1") []) :=
  claim4_normalize_idempotent (toL "HTTP") (toL "cs.uci.edu") (toL "/x/y/") (toL "a=1") []
    ⟨by decide, by decide, by decide, Or.inr ⟨toL "x/y/", by decide⟩,
     by decide, by decide, by decide⟩ (by decide)

/-- Claim C5: `is_valid` accepts a URL only if its scheme is `http` or
`https` and its authority is exactly one of the four allow-listed hosts; a
suffix-only match such as `evilics.uci.edu` is rejected. -/
theorem claim5_scope_filter :
    (∀ u : List Char, is_valid u = true →
      ((urlparseF [] u).scheme = toL "http" ∨ (urlparseF [] u).scheme = toL "https") ∧
      (urlparseF [] u).netloc ∈ allowed_domains) ∧
    is_valid (toL "http://evilics.uci.edu/") = false ∧
    is_valid (toL "https://evilics.uci.edu/page.html") = false := by
  refine ⟨?_, by decide, by decide⟩
  intro u hv
  unfold is_valid at hv
  by_cases h1 : (urlparseF [] u).scheme = toL "http" ∨ (urlparseF [] u).scheme = toL "https"
  · by_cases h2 : (urlparseF [] u).netloc ∈ allowed_domains
    · exact ⟨h1, h2⟩
    · simp only [h1, not_true_eq_false, if_false, h2, not_false_eq_true, if_true] at hv
      cases hv
  · simp only [h1, not_false_eq_true, if_true] at hv
    cases hv

/-- Witness for C5 at an accepted URL. -/
theorem claim5_scope_filter_witness :
    ((urlparseF [] (toL "https://ics.uci.edu/a")).scheme = toL "http" ∨
     (urlparseF [] (toL "https://ics.uci.edu/a")).scheme = toL "https") ∧
    (urlparseF [] (toL "https://ics.uci.edu/a")).netloc ∈ allowed_domains :=
  claim5_scope_filter.1 (toL "https://ics.uci.edu/a") (by decide)

/-- Claim C10 (implicit): `is_valid` rejects every URL whose parsed path
contains more than ten `/` characters, a depth limit on top of the other
filters; a shallow URL on the same host is accepted. -/
theorem claim10_path_depth_limit :
    (∀ u : List Char, 10 < (urlparseF [] u).path.count '/' → is_valid u = false) ∧
    is_valid (toL "https://ics.uci.edu/a/b/c/d/e/f/g/h/i/j/k/l") = false ∧
    is_valid (toL "https://ics.uci.edu/a/b") = true := by
  refine ⟨?_, by decide, by decide⟩
  intro u hcount
  unfold is_valid
  by_cases h1 : (urlparseF [] u).scheme = toL "http" ∨ (urlparseF [] u).scheme = toL "https"
  · by_cases h2 : (urlparseF [] u).netloc ∈ allowed_domains
    · by_cases h3 : _is_trap_url u = true
      · simp [h1, h2, h3]
      · by_cases h4 : extRejects (urlparseF [] u).path = true
        · simp [h1, h2, h3, h4]
        · simp [h1, h2, h3, h4, hcount]
    · simp [h1, h2]
  · simp [h1]

/-- Witness for C10 at a twelve-slash path inside the scoped domain. -/
theorem claim10_path_depth_limit_witness :
    is_valid (toL "https://ics.uci.edu/a/b/c/d/e/f/g/h/i/j/k/l") = false :=
  claim10_path_depth_limit.1 (toL "https://ics.uci.edu/a/b/c/d/e/f/g/h/i/j/k/l") (by decide)

/-- Claim C6: the Extension Filter rejects exactly the paths whose lowercased
form ends in a dot followed by a listed extension (the path never contains a
newline, which the hypothesis records), the match being case-insensitive and
anchored at the true end of the path; the query string plays no part, and
`paper.PDF` is rejected while `paper.pdf.html` and a `.pdf` inside the query
are accepted. -/
theorem claim6_extension_filter :
    (∀ p : List Char, '\n' ∉ p →
      (extRejects p = true ↔
        ∃ e ∈ ext_list, isSuffixL ('.' :: e) (p.map Char.toLower) = true)) ∧
    is_valid (toL "https://cs.uci.edu/paper.PDF") = false ∧
    is_valid (toL "https://cs.uci.edu/paper.pdf.html") = true ∧
    is_valid (toL "https://cs.uci.edu/page?x=.pdf") = true := by
  refine ⟨?_, by decide, by decide, by decide⟩
  intro p hnl
  unfold extRejects
  have hstrip : (match p.getLast? with
      | some c => if c = '\n' then p.dropLast else p
      | none => p) = p := by
    cases hl : p.getLast? with
    | none => rfl
    | some c =>
      simp only
      rw [if_neg]
      intro hceq
      subst hceq
      exact hnl (List.mem_of_getLast?_eq_some hl)
  rw [hstrip]
  have hcont : p.contains '\n' = false := by
    cases hcv : p.contains '\n' with
    | false => rfl
    | true => exact absurd (List.elem_iff.mp hcv) hnl
  simp [hcont, List.any_eq_true]
  exact fun x _ _ => hnl

/-- Witness for the universally quantified part of C6 at a concrete path. -/
theorem claim6_extension_filter_witness :
    extRejects (toL "/paper.PDF") = true ↔
      ∃ e ∈ ext_list, isSuffixL ('.' :: e) ((toL "/paper.PDF").map Char.toLower) = true :=
  claim6_extension_filter.1 (toL "/paper.PDF") (by decide)

/-- Claim C7: the Trap Filter returns true whenever the date pattern
`YYYY-MM(-DD)?` (with word boundaries) occurs anywhere in the lowercased
URL — in particular anywhere in path or query — or inside a percent-decoded
query value; the three example URLs are all rejected. -/
theorem claim7_trap_filter :
    (∀ u : List Char, dateSearch (u.map Char.toLower) = true → _is_trap_url u = true) ∧
    (∀ u : List Char, ∀ kv ∈ parse_qsl (urlparseF [] u).query,
        dateSearch (unquoteF kv.2) = true → _is_trap_url u = true) ∧
    _is_trap_url (toL "https://ics.uci.edu/events/2023-05-01/") = true ∧
    _is_trap_url (toL "https://ics.uci.edu/events/2023-05-01") = true ∧
    _is_trap_url (toL "https://ics.uci.edu/events?date=2023-05-01") = true := by
  refine ⟨?_, ?_, by decide, by decide, by decide⟩
  · intro u hd
    unfold _is_trap_url
    simp [hd]
  · intro u kv hkv hd
    unfold _is_trap_url
    have hq : (parse_qsl (urlparseF [] u).query).any
        (fun kv => dateSearch (unquoteF kv.2)) = true :=
      List.any_eq_true.mpr ⟨kv, hkv, hd⟩
    simp [hq]

/-- Witness for the quantified parts of C7: a percent-encoded date in a
query value triggers the trap filter. -/
theorem claim7_trap_filter_witness :
    _is_trap_url (toL "https://ics.uci.edu/p?d=2023%2D05") = true :=
  claim7_trap_filter.2.1 (toL "https://ics.uci.edu/p?d=2023%2D05")
    (toL "d", toL "2023-05") (by decide) (by decide)

/-- Claim C9: `extract_next_links` returns, in first-seen order (a sublist
of the per-href resolutions against the final URL), links that are pairwise
distinct under normalization, none of which normalizes to the page's own
final URL, and none of which contains a fragment separator. -/
theorem claim9_extractor_properties (url : List Char) (resp : Response) :
    List.Pairwise (fun a b => _normalize_url a ≠ _normalize_url b)
      (extract_next_links url resp) ∧
    (∀ l ∈ extract_next_links url resp, _normalize_url l ≠ _normalize_url resp.url) ∧
    (∀ l ∈ extract_next_links url resp, '#' ∉ l) ∧
    (extract_next_links url resp).Sublist ((pageHrefs resp).map (resolveHref resp.url)) := by
  unfold extract_next_links pageHrefs
  by_cases h1 : resp.status ≠ 200
  · rw [if_pos h1]
    exact ⟨List.Pairwise.nil, by simp, by simp, List.nil_sublist _⟩
  · rw [if_neg h1]
    cases hr : resp.raw_response with
    | none =>
      dsimp only
      exact ⟨List.Pairwise.nil, by simp, by simp, List.nil_sublist _⟩
    | some raw =>
      dsimp only
      by_cases h2 : raw.content.size = 0 ∨ raw.content.size < MIN_HTML_SIZE
      · rw [if_pos h2]
        exact ⟨List.Pairwise.nil, by simp, by simp, List.nil_sublist _⟩
      · rw [if_neg h2]
        refine ⟨extractAux_pairwise _ _, ?_, ?_, ?_⟩
        · intro l hl
          exact (extractAux_norms _ _ l hl).2
        · intro l hl
          exact extractAux_no_hash _ _ l hl
        · exact extractAux_sublist _ _

/-- Witness for C9: on the concrete `respLinks` page, the one surviving link
resolves to `a.html`, does not normalize to the page itself, and carries no
fragment. -/
theorem claim9_extractor_properties_witness :
    _normalize_url (toL "https://ics.uci.edu/a.html") ≠ _normalize_url respLinks.url ∧
    '#' ∉ toL "https://ics.uci.edu/a.html" :=
  ⟨(claim9_extractor_properties (toL "https://ics.uci.edu/page") respLinks).2.1
      (toL "https://ics.uci.edu/a.html") (by decide),
   (claim9_extractor_properties (toL "https://ics.uci.edu/page") respLinks).2.2.1
      (toL "https://ics.uci.edu/a.html") (by decide)⟩

theorem mem_setInsert_self (x : List Char) (s : List (List Char)) : x ∈ setInsert x s := by
  unfold setInsert
  by_cases hx : x ∈ s
  · simp [hx]
  · simp [hx]

/-- Claim C1 (code bug): on a 200-status page with a 2000-byte body, in an
environment with no file named by the page text, `scraper` does not return a
rejection result — the tokenizer opens the extracted text as a file path,
hits `FileNotFoundError`, and calls `sys.exit(1)`, terminating the process. -/
theorem claim1_scraper_tokenizer_exit :
    scraper fsNone md5id (toL "https://ics.uci.edu/page") (some respPage) init_state =
      (Except.error (PyErr.systemExit 1), init_state) := by
  rfl

/-- Claim C2: the exact-text duplicate detector (with the spec-modelled
`EXACT_PAGE_CONTENTS` set) records a page text as seen on its first
processing, and on any later call whose extracted text is already in the
set — regardless of the URL — `scraper` returns the empty link list and
leaves the whole state (unique-URL set included) unchanged. -/
theorem claim2_duplicate_detector :
    (∀ fs md5hex url resp raw st tokens,
        resp.raw_response = some raw → resp.status = 200 →
        MIN_HTML_SIZE ≤ raw.content.size →
        tokenize fs raw.content.doc.text = Except.ok tokens →
        MIN_WORD_COUNT ≤ tokens.length →
        raw.content.doc.text ∉ st.exact_page_contents →
        raw.content.doc.text ∈
          ((scraper fs md5hex url (some resp) st).2).exact_page_contents) ∧
    (∀ fs md5hex url resp raw st,
        resp.raw_response = some raw → resp.status = 200 →
        MIN_HTML_SIZE ≤ raw.content.size →
        (∃ tokens, tokenize fs raw.content.doc.text = Except.ok tokens ∧
          MIN_WORD_COUNT ≤ tokens.length) →
        raw.content.doc.text ∈ st.exact_page_contents →
        scraper fs md5hex url (some resp) st = (Except.ok [], st)) := by
  constructor
  · intro fs md5hex url resp raw st tokens hraw h200 hsize htok hlen hnew
    unfold scraper
    dsimp only [_get_soup]
    rw [hraw]
    dsimp only [_get_soup]
    rw [if_neg (by simp [h200])]
    rw [if_neg (by simp only [MIN_HTML_SIZE] at hsize ⊢; omega)]
    rw [htok]
    dsimp only [_get_soup]
    rw [if_neg (by omega)]
    rw [if_neg hnew]
    by_cases hck : md5hex raw.content.doc.text ∈ st.page_checksums <;>
      by_cases hbig : raw.content.size > LARGE_PAGE_THRESHOLD <;>
        simp [hck, hbig, mem_setInsert_self]
  · intro fs md5hex url resp raw st hraw h200 hsize htokex hdup
    obtain ⟨tokens, htok, hlen⟩ := htokex
    unfold scraper
    dsimp only [_get_soup]
    rw [hraw]
    dsimp only [_get_soup]
    rw [if_neg (by simp [h200])]
    rw [if_neg (by simp only [MIN_HTML_SIZE] at hsize ⊢; omega)]
    rw [htok]
    dsimp only [_get_soup]
    rw [if_neg (by omega)]
    rw [if_pos hdup]

/-- Witness for C2: a first fetch records the text; a second fetch of a
different URL with byte-identical text returns no links and leaves the
state unchanged. -/
theorem claim2_duplicate_detector_witness :
    (toL "sample body text") ∈
      ((scraper fs50 md5id (toL "https://ics.uci.edu/page") (some respPage)
          init_state).2).exact_page_contents ∧
    scraper fs50 md5id (toL "https://ics.uci.edu/other") (some respPage2)
        ⟨[toL "sample body text"], [], init_stats⟩ =
      (Except.ok [], ⟨[toL "sample body text"], [], init_stats⟩) :=
  ⟨claim2_duplicate_detector.1 fs50 md5id (toL "https://ics.uci.edu/page") respPage
      ⟨⟨2000, docPlain⟩⟩ init_state (List.replicate 50 (toL "ab"))
      rfl rfl (by decide) rfl (by decide) (by decide),
   claim2_duplicate_detector.2 fs50 md5id (toL "https://ics.uci.edu/other") respPage2
      ⟨⟨1500, docPlain⟩⟩ ⟨[toL "sample body text"], [], init_stats⟩
      rfl rfl (by decide) ⟨List.replicate 50 (toL "ab"), rfl, by decide⟩ (by decide)⟩

/-- Claim C8: every early-gate rejection of the Page Gate (absent response,
absent body, non-200 status, undersized body) returns the empty link list
with the whole crawl state — statistics and duplicate-detection sets —
unchanged; and the statistics object changes only when every prior gate
(status, size floor, tokenization, word count, both duplicate gates, size
ceiling) has passed. -/
theorem claim8_early_gates_frame :
    (∀ fs md5hex url st, scraper fs md5hex url none st = (Except.ok [], st)) ∧
    (∀ fs md5hex url resp st, resp.raw_response = none →
        scraper fs md5hex url (some resp) st = (Except.ok [], st)) ∧
    (∀ fs md5hex url resp st, resp.status ≠ 200 →
        scraper fs md5hex url (some resp) st = (Except.ok [], st)) ∧
    (∀ fs md5hex url resp raw st, resp.raw_response = some raw → resp.status = 200 →
        raw.content.size < MIN_HTML_SIZE →
        scraper fs md5hex url (some resp) st = (Except.ok [], st)) ∧
    (∀ fs md5hex url resp st,
        ((scraper fs md5hex url resp st).2).stats ≠ st.stats →
        ∃ r raw tokens, resp = some r ∧ r.raw_response = some raw ∧ r.status = 200 ∧
          MIN_HTML_SIZE ≤ raw.content.size ∧ raw.content.size ≤ LARGE_PAGE_THRESHOLD ∧
          tokenize fs raw.content.doc.text = Except.ok tokens ∧
          MIN_WORD_COUNT ≤ tokens.length ∧
          raw.content.doc.text ∉ st.exact_page_contents ∧
          md5hex raw.content.doc.text ∉ st.page_checksums) := by
  refine ⟨fun fs md5hex url st => rfl, ?_, ?_, ?_, ?_⟩
  · intro fs md5hex url resp st hraw
    unfold scraper
    dsimp only [_get_soup]
    rw [hraw]
  · intro fs md5hex url resp st h200
    unfold scraper
    dsimp only [_get_soup]
    cases hraw : resp.raw_response with
    | none => rfl
    | some raw =>
      dsimp only [_get_soup]
      rw [if_pos h200]
  · intro fs md5hex url resp raw st hraw h200 hsize
    unfold scraper
    dsimp only [_get_soup]
    rw [hraw]
    dsimp only [_get_soup]
    rw [if_neg (by simp [h200])]
    rw [if_pos (Or.inr hsize)]
  · intro fs md5hex url resp st hstats
    cases resp with
    | none => exact absurd rfl hstats
    | some r =>
      unfold scraper at hstats
      dsimp only [_get_soup] at hstats
      cases hraw : r.raw_response with
      | none =>
        rw [hraw] at hstats
        exact absurd rfl hstats
      | some raw =>
        rw [hraw] at hstats
        dsimp only [_get_soup] at hstats
        by_cases h200 : r.status ≠ 200
        · rw [if_pos h200] at hstats
          exact absurd rfl hstats
        · rw [if_neg h200] at hstats
          by_cases hsz : raw.content.size = 0 ∨ raw.content.size < MIN_HTML_SIZE
          · rw [if_pos hsz] at hstats
            exact absurd rfl hstats
          · rw [if_neg hsz] at hstats
            cases htok : tokenize fs raw.content.doc.text with
            | error e =>
              rw [htok] at hstats
              exact absurd rfl hstats
            | ok tokens =>
              rw [htok] at hstats
              dsimp only [_get_soup] at hstats
              by_cases hwc : tokens.length < MIN_WORD_COUNT
              · rw [if_pos hwc] at hstats
                exact absurd rfl hstats
              · rw [if_neg hwc] at hstats
                by_cases hdup : raw.content.doc.text ∈ st.exact_page_contents
                · rw [if_pos hdup] at hstats
                  exact absurd rfl hstats
                · rw [if_neg hdup] at hstats
                  by_cases hck : md5hex raw.content.doc.text ∈ st.page_checksums
                  · rw [if_pos hck] at hstats
                    exact absurd rfl hstats
                  · rw [if_neg hck] at hstats
                    by_cases hbig : raw.content.size > LARGE_PAGE_THRESHOLD
                    · rw [if_pos hbig] at hstats
                      exact absurd rfl hstats
                    · push_neg at h200 hsz
                      exact ⟨r, raw, tokens, rfl, hraw, h200,
                             hsz.2, Nat.le_of_not_lt hbig,
                             htok, Nat.le_of_not_lt hwc, hdup, hck⟩

/-- Witness for C8: a 200-status response with a 100-byte body is rejected
with an empty link list and an unchanged state. -/
theorem claim8_early_gates_frame_witness :
    scraper fsNone md5id (toL "https://ics.uci.edu/s") (some respSmall) init_state =
      (Except.ok [], init_state) :=
  claim8_early_gates_frame.2.2.2.1 fsNone md5id (toL "https://ics.uci.edu/s") respSmall
    ⟨⟨100, docPlain⟩⟩ init_state rfl rfl (by decide)
